import Mathlib

namespace ChessManager

/-!
# Verification of the ChessManager repository

Shallow embedding of `src/motion.py` and `src/manager.py`.

Coordinates: the source works in millimetre floats where every quantity is
an integer multiple of `SW / 2` (half the cell pitch, `SW = 57.15 mm`).
We therefore embed positions with exact `Int` coordinates measured in units
of `SW / 2`, so a square center sits at odd coordinates and square corners
at even ones.  One cell pitch equals `2` in these units.
-/

/-- A physical position (source `motion.Pos`), in half-pitch units. -/
structure Pos where
  x : Int
  y : Int
deriving DecidableEq, Repr

/-- A chess square given as file index (0 = a .. 7 = h) and rank (1..8). -/
structure Square where
  file : Nat
  rank : Nat
deriving DecidableEq, Repr

/-- Source `letter_to_x`: `(i + 0.5) * SW`, i.e. `2*i + 1` half-pitches. -/
def letter_to_x (file : Nat) : Int := 2 * (file : Int) + 1

/-- Source `number_to_y`: `(rank - 0.5) * SW`, i.e. `2*rank - 1` half-pitches. -/
def number_to_y (rank : Nat) : Int := 2 * (rank : Int) - 1

/-- Source `uci_square_to_pos`. -/
def uci_square_to_pos (sq : Square) : Pos :=
  ⟨letter_to_x sq.file, number_to_y sq.rank⟩

/-- Source `uci_to_coords`: a UCI move is a pair of squares. -/
def uci_to_coords (m : Square × Square) : Pos × Pos :=
  (uci_square_to_pos m.1, uci_square_to_pos m.2)

/-- Source `square_adjacent_corners` (`half = SW/2 = 1` in our units). -/
def square_adjacent_corners (p : Pos) : List Pos :=
  [⟨p.x - 1, p.y - 1⟩, ⟨p.x + 1, p.y - 1⟩, ⟨p.x - 1, p.y + 1⟩, ⟨p.x + 1, p.y + 1⟩]

/-- Squared distance, the key used with `min` in the source. -/
def dist2 (c q : Pos) : Int := (c.x - q.x) ^ 2 + (c.y - q.y) ^ 2

/-- Python `min(corners, key=...)`: first element of minimal key wins. -/
def min_by_dist2 (q : Pos) : List Pos → Pos
  | [] => ⟨0, 0⟩
  | c :: cs => cs.foldl (fun best cand => if dist2 cand q < dist2 best q then cand else best) c

/-- Source `find_first_corner`. -/
def find_first_corner (start stop : Pos) : Pos :=
  min_by_dist2 stop (square_adjacent_corners start)

/-- Source `find_last_corner`. -/
def find_last_corner (start stop : Pos) : Pos :=
  min_by_dist2 start (square_adjacent_corners stop)

/-- Source `find_closest_corners`. -/
def find_closest_corners (start stop : Pos) : Pos × Pos :=
  (find_first_corner start stop, find_last_corner start stop)

/-- Source `to_corner`: vertical step first, then horizontal. -/
def to_corner (start corner : Pos) : List Pos :=
  let dx := corner.x - start.x
  let dy := corner.y - start.y
  (if dy ≠ 0 then [(⟨0, dy⟩ : Pos)] else []) ++ (if dx ≠ 0 then [(⟨dx, 0⟩ : Pos)] else [])

/-- Source `from_corner`: horizontal step first, then vertical. -/
def from_corner (corner stop : Pos) : List Pos :=
  let dy := stop.y - corner.y
  let dx := stop.x - corner.x
  (if dx ≠ 0 then [(⟨dx, 0⟩ : Pos)] else []) ++ (if dy ≠ 0 then [(⟨0, dy⟩ : Pos)] else [])

/-- Source `manhattan`: horizontal step first, then vertical. -/
def manhattan (start stop : Pos) : List Pos :=
  let dx := stop.x - start.x
  let dy := stop.y - start.y
  (if dx ≠ 0 then [(⟨dx, 0⟩ : Pos)] else []) ++ (if dy ≠ 0 then [(⟨0, dy⟩ : Pos)] else [])

/--
One pass of the merging loop inside source `concat_steps`: `last` is the
current final element of the Python list `merged`, the remaining input is
processed element by element; the returned Bool is the `changed` flag.
-/
def mergeAux (last : Pos) : List Pos → List Pos × Bool
  | [] => ([last], false)
  | s :: rest =>
    if last.x ≠ 0 ∧ s.x ≠ 0 then
      ((mergeAux ⟨last.x + s.x, last.y⟩ rest).1, true)
    else if last.y ≠ 0 ∧ s.y ≠ 0 then
      ((mergeAux ⟨last.x, last.y + s.y⟩ rest).1, true)
    else
      ((mergeAux s rest).1.cons last, (mergeAux s rest).2)

/-- Source `concat_steps`: merge pass, drop zero steps, recurse when the
pass changed something and the list shrank. -/
def concat_steps (steps : List Pos) : List Pos :=
  match steps with
  | [] => []
  | s0 :: rest =>
    let pass := mergeAux s0 rest
    let merged := pass.1.filter fun p => decide (p.x ≠ 0) || decide (p.y ≠ 0)
    if h : pass.2 = true ∧ merged.length < (s0 :: rest).length then
      concat_steps merged
    else
      merged
termination_by steps.length
decreasing_by exact h.2

/-- Source `generate_motion_steps`. -/
def generate_motion_steps (m : Square × Square) : Pos × List Pos :=
  let (start, stop) := uci_to_coords m
  let (first, last) := find_closest_corners start stop
  (start, concat_steps (to_corner start first ++ manhattan first last ++ from_corner last stop))

/-- Componentwise sum of a step list. -/
def sumSteps (l : List Pos) : Pos :=
  l.foldr (fun p acc => ⟨p.x + acc.x, p.y + acc.y⟩) ⟨0, 0⟩

/-- A vector that lies on one axis (zero allowed). -/
def axisOrZero (p : Pos) : Prop := p.x = 0 ∨ p.y = 0

/-- A vector with exactly one nonzero component ("non-zero and axis-aligned"
in the spec's sense). -/
def axisAligned (p : Pos) : Prop := (p.x ≠ 0 ∧ p.y = 0) ∨ (p.x = 0 ∧ p.y ≠ 0)

instance : DecidablePred axisOrZero := fun p => by unfold axisOrZero; infer_instance

instance : DecidablePred axisAligned := fun p => by unfold axisAligned; infer_instance

/-- Adjacent steps do not share an axis: the relation the merge loop
drives the path towards. -/
def sameAxisFree (a b : Pos) : Prop := ¬(a.x ≠ 0 ∧ b.x ≠ 0) ∧ ¬(a.y ≠ 0 ∧ b.y ≠ 0)

instance : ∀ a b, Decidable (sameAxisFree a b) := fun a b => by
  unfold sameAxisFree; infer_instance

/-- A square on the chess board: files a..h, ranks 1..8. -/
def isValidSquare (sq : Square) : Prop := sq.file < 8 ∧ 1 ≤ sq.rank ∧ sq.rank ≤ 8

instance : DecidablePred isValidSquare := fun sq => by unfold isValidSquare; infer_instance

/-!
## Embedding of `src/manager.py`

A physical board is an 8×8 grid of optional piece identifiers
(`None` = empty in the source, byte values 1..255 are opaque piece ids).
-/

/-- An 8×8 (or 8×4) grid of optional piece identifiers. -/
abbrev PhysBoard := List (List (Option Nat))

/-- Source `pos_to_uci`: `chr(ord("a") + c) + str(8 - r)`. -/
def pos_to_uci (r c : Nat) : String :=
  String.singleton (Char.ofNat (97 + c)) ++ toString (8 - r)

/-- Cell lookup `board[r][c]`. -/
def cell (b : PhysBoard) (rc : Nat × Nat) : Option Nat :=
  (b.getD rc.1 []).getD rc.2 none

/-- The row-major scan order of the nested `for r / for c` loops in source
`detect_move`. -/
def scanPairs : List (Nat × Nat) :=
  (List.range 8).bind fun r => (List.range 8).map fun c => (r, c)

/-- The body of the double loop in source `detect_move`, updating the
`(from_sq, to_sq)` state at one square. -/
def detectStep (old_board new_board : PhysBoard)
    (st : Option (Nat × Nat) × Option (Nat × Nat)) (rc : Nat × Nat) :
    Option (Nat × Nat) × Option (Nat × Nat) :=
  let o := cell old_board rc
  let n := cell new_board rc
  if o ≠ n then
    if o.isSome ∧ n = none then (some rc, st.2)
    else if o = none ∧ n.isSome then (st.1, some rc)
    else st
  else st

/-- Source `detect_move`: scan the 64 squares, remember the last square that
went occupied→empty and the last that went empty→occupied, and build a UCI
string when both exist. -/
def detect_move (old_board new_board : PhysBoard) : Option String :=
  let st := scanPairs.foldl (detectStep old_board new_board) (none, none)
  match st.1, st.2 with
  | some (fr, fc), some (tr, tc) => some (pos_to_uci fr fc ++ pos_to_uci tr tc)
  | _, _ => none

/-- A square that changed from occupied to empty. -/
def vacatedB (old_board new_board : PhysBoard) (rc : Nat × Nat) : Bool :=
  (cell old_board rc).isSome && (cell new_board rc).isNone

/-- A square that changed from empty to occupied. -/
def appearedB (old_board new_board : PhysBoard) (rc : Nat × Nat) : Bool :=
  (cell old_board rc).isNone && (cell new_board rc).isSome

/-- A board that is empty except for piece id 5 on e2 (row 6, column 4). -/
def demoOld : PhysBoard :=
  (List.replicate 8 (List.replicate 8 (none : Option Nat))).set 6
    ((List.replicate 8 (none : Option Nat)).set 4 (some 5))

/-- A board that is empty except for piece id 5 on e4 (row 4, column 4). -/
def demoNew : PhysBoard :=
  (List.replicate 8 (List.replicate 8 (none : Option Nat))).set 4
    ((List.replicate 8 (none : Option Nat)).set 4 (some 5))

/-- A baseline with piece id 9 on e7 (row 1, column 4) and piece id 5 on e2
(row 6, column 4).  Reading it against `demoNew` models an e7 sensor dropout
combined with a physical e2→e4 displacement: a layout no single legal move
produces, whose occupancy diff nevertheless looks like the move e2e4. -/
def demoOld2 : PhysBoard :=
  ((List.replicate 8 (List.replicate 8 (none : Option Nat))).set 1
      ((List.replicate 8 (none : Option Nat)).set 4 (some 9))).set 6
    ((List.replicate 8 (none : Option Nat)).set 4 (some 5))

/-!
## Game flow: `detect_player_move`, `player_move`, `ai_move`, `play`
-/

/-- Source `GameManager.detect_player_move`, with the polled sensor state
passed explicitly (in the source it is the result of
`assemble_full_board`, `None` on read failure).  Returns the detected UCI
string (if any) together with the updated `self.physical_board` baseline. -/
def detect_player_move (physical_board : PhysBoard) (new_state : Option PhysBoard) :
    Option String × PhysBoard :=
  match new_state with
  | none => (none, physical_board)
  | some ns =>
    match detect_move physical_board ns with
    | none => (none, physical_board)
    | some uci => (some uci, ns)

/-- The player-wait loop of `GameManager.play` calls `detect_player_move`
once per poll cycle; `run_polls` iterates it over a sequence of assembled
boards, collecting the detected move of each poll and threading
`self.physical_board` from one poll to the next. -/
def run_polls (physical_board : PhysBoard) :
    List (Option PhysBoard) → List (Option String) × PhysBoard
  | [] => ([], physical_board)
  | poll :: rest =>
    let r := detect_player_move physical_board poll
    let rr := run_polls r.2 rest
    (r.1 :: rr.1, rr.2)

/-- The spec's reading of "layout reachable by a single legal move":
membership in the (finite) set of occupancy layouts obtained by applying
each legal move of the current symbolic position.  Legality itself lives in
the external rules engine (python-chess), so the set enters as data; a
position with no legal moves (any stalemate or checkmate) has the empty
list. -/
def layoutReachable (legalLayouts : List PhysBoard) (layout : PhysBoard) : Prop :=
  layout ∈ legalLayouts

instance (legalLayouts : List PhysBoard) (layout : PhysBoard) :
    Decidable (layoutReachable legalLayouts layout) := by
  unfold layoutReachable; infer_instance

/-- `PLAYER, COM = 0, 1` in the source. -/
def PLAYER : Nat := 0

def COM : Nat := 1

/-- The mutable state of `GameManager` that the game flow touches: the
rules-engine position (`self.board`, abstract — the source delegates it to
the python-chess library), `self.current_turn`, and
`self.physical_board`. -/
structure GameState (π : Type) where
  pos : π
  turn : Nat
  physical : PhysBoard

/-- Source `GameManager.player_move`: push the move and hand the turn to the
computer only when `board.is_legal(move)`; otherwise print "Illegal move."
and change nothing.  `push` and `legal` are the external rules engine. -/
def player_move {π μ : Type} (push : π → μ → π) (legal : π → μ → Bool)
    (st : GameState π) (mv : μ) : GameState π :=
  if legal st.pos mv then { st with pos := push st.pos mv, turn := COM } else st

/-- Source `GameManager.ai_move`: push the oracle-returned move and hand the
turn back to the player. -/
def ai_move {π μ : Type} (push : π → μ → π) (oracle : π → μ)
    (st : GameState π) : GameState π :=
  { st with pos := push st.pos (oracle st.pos), turn := PLAYER }

/-- One iteration of the player branch of the `GameManager.play` loop
(`TERMINAL_PLAY` is `False` in the source): poll the sensors (`new_state` is
the assembled board, `None` on read failure), run `detect_player_move`,
parse the UCI string with `chess.Move.from_uci` (abstract; `None` models the
`ValueError` path), and apply the move via `player_move`.  All `continue`
paths leave the symbolic position untouched. -/
def play_player_turn {π μ : Type} (push : π → μ → π) (legal : π → μ → Bool)
    (parse : String → Option μ) (st : GameState π) (new_state : Option PhysBoard) :
    GameState π :=
  let r := detect_player_move st.physical new_state
  let st1 : GameState π := { st with physical := r.2 }
  match r.1 with
  | none => st1
  | some uci =>
    match parse uci with
    | none => st1
    | some mv => player_move push legal st1 mv

/-!
## Sensor frame decoding and board assembly
-/

/-- `NUM_READERS_PER_NANO = 32` (4 mux × 8 channels). -/
def NUM_READERS_PER_NANO : Nat := 32

/-- Source `NANO1_MAP`, the wiring permutation of the e–h module. -/
def NANO1_MAP : List Nat := [7, 6, 5, 4, 1, 0, 2, 3]

/-- The inverse table of `NANO1_MAP` (`INV[MAP[i]] = i`), used by the spec's
re-encoding direction; it does not appear in the source. -/
def NANO1_MAP_INV : List Nat := [5, 4, 6, 7, 3, 2, 1, 0]

/-- The remapping loop of source `_remap_and_reshape_half`:
`remapped[mux*8 + map_arr[i]] = raw_block[mux*8 + i]` over the four
8-channel blocks, into an array initialized with zeros. -/
def apply_block_map (map_arr : List Nat) (raw_block : List Nat) : List Nat :=
  (List.range 4).foldl (fun acc mux =>
    (List.range 8).foldl (fun acc2 i =>
      acc2.set (mux * 8 + map_arr.getD i 0) (raw_block.getD (mux * 8 + i) 0)) acc)
    (List.replicate 32 0)

/-- Source `GameManager._remap_and_reshape_half`: `None` for a missing or
malformed block; otherwise remap each 8-channel block, reshape the 32 values
into 8 rows × 4 columns (`0` ↦ empty cell), and reverse the rows so that
row 0 is rank 8. -/
def remap_and_reshape_half (raw_block : Option (List Nat)) (map_arr : List Nat) :
    Option (List (List (Option Nat))) :=
  match raw_block with
  | none => none
  | some raw =>
    if raw.length ≠ NUM_READERS_PER_NANO then none
    else
      let remapped := apply_block_map map_arr raw
      let half := (List.range 8).map fun row => (List.range 4).map fun col =>
        let val := remapped.getD (row * 4 + col) 0
        if val = 0 then none else some val
      some half.reverse

/-- Modelled from the spec: the re-encoding direction of the
SensorFrameDecoder round trip (the source only decodes).  It undoes the row
reversal and the 8×4 reshape, maps empty cells back to `0`, and applies the
remapping loop with the inverse permutation table. -/
def reencode_half (half : List (List (Option Nat))) (map_arr : List Nat) : List Nat :=
  let flat := (half.reverse.flatten).map fun o => o.getD 0
  apply_block_map map_arr flat

/-- Source `GameManager._read_half_from_nano1`: bail out when the ping
fails, then decode the 32-byte block with `NANO1_MAP`. -/
def read_half_from_nano1 (ping_ok : Bool) (raw : Option (List Nat)) :
    Option (List (List (Option Nat))) :=
  if ping_ok then remap_and_reshape_half raw NANO1_MAP else none

/-- Source `GameManager.assemble_full_board`: the left half (a–d files) is a
placeholder of `None` until Nano0's serial is known; the right half (e–h)
comes from Nano1; `None` when the required read fails. -/
def assemble_full_board (ping_ok : Bool) (raw : Option (List Nat)) : Option PhysBoard :=
  let left : List (List (Option Nat)) := List.replicate 8 (List.replicate 4 none)
  match read_half_from_nano1 ping_ok raw with
  | none => none
  | some right =>
    let full := (List.range 8).foldl (fun acc r =>
      let acc1 := (List.range 4).foldl (fun a c =>
        a.set r ((a.getD r []).set c ((left.getD r []).getD c none))) acc
      (List.range 4).foldl (fun a c =>
        a.set r ((a.getD r []).set (c + 4) ((right.getD r []).getD c none))) acc1)
      (List.replicate 8 (List.replicate 8 none))
    some full

/-!
## Lemmas and claim theorems
-/

lemma Pos.ext2 {p q : Pos} (hx : p.x = q.x) (hy : p.y = q.y) : p = q := by
  cases p; cases q; simp_all

lemma axisOrZero_of_axisAligned {p : Pos} (h : axisAligned p) : axisOrZero p := by
  rcases h with ⟨_, h⟩ | ⟨h, _⟩
  · exact Or.inr h
  · exact Or.inl h

@[simp] lemma sumSteps_nil : sumSteps [] = (⟨0, 0⟩ : Pos) := rfl

lemma sumSteps_cons (p : Pos) (l : List Pos) :
    sumSteps (p :: l) = ⟨p.x + (sumSteps l).x, p.y + (sumSteps l).y⟩ := rfl

/-! ## Properties of the merge pass -/

lemma mergeAux_false : ∀ (l : List Pos) (last : Pos), (mergeAux last l).2 = false →
    (mergeAux last l).1 = last :: l
  | [], _, _ => rfl
  | s :: rest, last, h => by
    by_cases h1 : last.x ≠ 0 ∧ s.x ≠ 0
    · simp [mergeAux, h1] at h
    · by_cases h2 : last.y ≠ 0 ∧ s.y ≠ 0
      · simp [mergeAux, h1, h2] at h
      · simp only [mergeAux, if_neg h1, if_neg h2] at h ⊢
        rw [mergeAux_false rest s h]

lemma mergeAux_length : ∀ (l : List Pos) (last : Pos),
    (mergeAux last l).1.length ≤ l.length + 1
  | [], _ => by simp [mergeAux]
  | s :: rest, last => by
    by_cases h1 : last.x ≠ 0 ∧ s.x ≠ 0
    · simp only [mergeAux, if_pos h1, List.length_cons]
      have := mergeAux_length rest (⟨last.x + s.x, last.y⟩ : Pos)
      omega
    · by_cases h2 : last.y ≠ 0 ∧ s.y ≠ 0
      · simp only [mergeAux, if_neg h1, if_pos h2, List.length_cons]
        have := mergeAux_length rest (⟨last.x, last.y + s.y⟩ : Pos)
        omega
      · simp only [mergeAux, if_neg h1, if_neg h2, List.cons, List.length_cons]
        have := mergeAux_length rest s
        omega

lemma mergeAux_length_true : ∀ (l : List Pos) (last : Pos),
    (mergeAux last l).2 = true → (mergeAux last l).1.length ≤ l.length
  | [], _, h => by simp [mergeAux] at h
  | s :: rest, last, h => by
    by_cases h1 : last.x ≠ 0 ∧ s.x ≠ 0
    · simp only [mergeAux, if_pos h1, List.length_cons]
      have := mergeAux_length rest (⟨last.x + s.x, last.y⟩ : Pos)
      omega
    · by_cases h2 : last.y ≠ 0 ∧ s.y ≠ 0
      · simp only [mergeAux, if_neg h1, if_pos h2, List.length_cons]
        have := mergeAux_length rest (⟨last.x, last.y + s.y⟩ : Pos)
        omega
      · simp only [mergeAux, if_neg h1, if_neg h2] at h ⊢
        have := mergeAux_length_true rest s h
        simp only [List.cons, List.length_cons]
        omega

lemma mergeAux_axisOrZero : ∀ (l : List Pos) (last : Pos), axisOrZero last →
    (∀ p ∈ l, axisOrZero p) → ∀ p ∈ (mergeAux last l).1, axisOrZero p
  | [], last, hl, _, p, hp => by
    simp only [mergeAux, List.mem_singleton] at hp
    exact hp ▸ hl
  | s :: rest, last, hl, hall, p, hp => by
    have hs : axisOrZero s := hall s (by simp)
    have hrest : ∀ q ∈ rest, axisOrZero q := fun q hq => hall q (by simp [hq])
    by_cases h1 : last.x ≠ 0 ∧ s.x ≠ 0
    · simp only [mergeAux, if_pos h1] at hp
      have hly : last.y = 0 := hl.resolve_left h1.1
      exact mergeAux_axisOrZero rest ⟨last.x + s.x, last.y⟩ (Or.inr hly) hrest p hp
    · by_cases h2 : last.y ≠ 0 ∧ s.y ≠ 0
      · simp only [mergeAux, if_neg h1, if_pos h2] at hp
        have hlx : last.x = 0 := hl.resolve_right h2.1
        exact mergeAux_axisOrZero rest ⟨last.x, last.y + s.y⟩ (Or.inl hlx) hrest p hp
      · simp only [mergeAux, if_neg h1, if_neg h2, List.cons, List.mem_cons] at hp
        rcases hp with rfl | hp
        · exact hl
        · exact mergeAux_axisOrZero rest s hs hrest p hp

lemma mergeAux_sum : ∀ (l : List Pos) (last : Pos), axisOrZero last →
    (∀ p ∈ l, axisOrZero p) →
    sumSteps (mergeAux last l).1 =
      ⟨last.x + (sumSteps l).x, last.y + (sumSteps l).y⟩
  | [], last, _, _ => by
    simp [mergeAux, sumSteps]
  | s :: rest, last, hl, hall => by
    have hs : axisOrZero s := hall s (by simp)
    have hrest : ∀ q ∈ rest, axisOrZero q := fun q hq => hall q (by simp [hq])
    by_cases h1 : last.x ≠ 0 ∧ s.x ≠ 0
    · have hly : last.y = 0 := hl.resolve_left h1.1
      have hsy : s.y = 0 := hs.resolve_left h1.2
      simp only [mergeAux, if_pos h1]
      rw [mergeAux_sum rest ⟨last.x + s.x, last.y⟩ (Or.inr hly) hrest, sumSteps_cons]
      exact Pos.ext2 (by dsimp; ring) (by dsimp; rw [hsy]; ring)
    · by_cases h2 : last.y ≠ 0 ∧ s.y ≠ 0
      · have hlx : last.x = 0 := hl.resolve_right h2.1
        have hsx : s.x = 0 := hs.resolve_right h2.2
        simp only [mergeAux, if_neg h1, if_pos h2]
        rw [mergeAux_sum rest ⟨last.x, last.y + s.y⟩ (Or.inl hlx) hrest, sumSteps_cons]
        exact Pos.ext2 (by dsimp; rw [hsx]; ring) (by dsimp; ring)
      · simp only [mergeAux, if_neg h1, if_neg h2, List.cons]
        rw [sumSteps_cons, mergeAux_sum rest s hs hrest, sumSteps_cons]

lemma sumSteps_filter (l : List Pos) :
    sumSteps (l.filter fun p => decide (p.x ≠ 0) || decide (p.y ≠ 0)) = sumSteps l := by
  induction l with
  | nil => rfl
  | cons p rest ih =>
    by_cases hp : p.x ≠ 0 ∨ p.y ≠ 0
    · rw [List.filter_cons_of_pos (by simpa using hp), sumSteps_cons, sumSteps_cons, ih]
    · push_neg at hp
      rw [List.filter_cons_of_neg (by simp [hp.1, hp.2]), ih, sumSteps_cons]
      exact (Pos.ext2 (by dsimp; rw [hp.1]; ring) (by dsimp; rw [hp.2]; ring)).symm

lemma mergeAux_chain_of_false : ∀ (l : List Pos) (last : Pos),
    (mergeAux last l).2 = false → List.Chain' sameAxisFree (last :: l)
  | [], _, _ => by simp
  | s :: rest, last, h => by
    by_cases h1 : last.x ≠ 0 ∧ s.x ≠ 0
    · simp [mergeAux, h1] at h
    · by_cases h2 : last.y ≠ 0 ∧ s.y ≠ 0
      · simp [mergeAux, h1, h2] at h
      · simp only [mergeAux, if_neg h1, if_neg h2] at h
        exact List.chain'_cons.2 ⟨⟨h1, h2⟩, mergeAux_chain_of_false rest s h⟩

lemma mergeAux_of_chain : ∀ (l : List Pos) (last : Pos),
    List.Chain' sameAxisFree (last :: l) → mergeAux last l = (last :: l, false)
  | [], _, _ => rfl
  | s :: rest, last, hc => by
    have hok := (List.chain'_cons.1 hc).1
    have h1 : ¬(last.x ≠ 0 ∧ s.x ≠ 0) := hok.1
    have h2 : ¬(last.y ≠ 0 ∧ s.y ≠ 0) := hok.2
    simp only [mergeAux, if_neg h1, if_neg h2,
      mergeAux_of_chain rest s (List.chain'_cons.1 hc).2]

/-! ## Properties of `concat_steps` -/

lemma concat_steps_nil : concat_steps [] = [] := by rw [concat_steps]

lemma concat_steps_cons (s0 : Pos) (rest : List Pos) :
    concat_steps (s0 :: rest) =
      if ((mergeAux s0 rest).2 = true ∧
          ((mergeAux s0 rest).1.filter fun p => decide (p.x ≠ 0) || decide (p.y ≠ 0)).length
            < (s0 :: rest).length) then
        concat_steps ((mergeAux s0 rest).1.filter fun p => decide (p.x ≠ 0) || decide (p.y ≠ 0))
      else (mergeAux s0 rest).1.filter fun p => decide (p.x ≠ 0) || decide (p.y ≠ 0) := by
  rw [concat_steps]
  exact dite_eq_ite ..

lemma concat_steps_sum : ∀ (l : List Pos), (∀ p ∈ l, axisOrZero p) →
    sumSteps (concat_steps l) = sumSteps l := by
  intro l
  induction l using concat_steps.induct with
  | case1 => intro _; rw [concat_steps_nil]
  | case2 c cs pass merged hcond ih =>
    intro hall
    have hc : axisOrZero c := hall c (by simp)
    have hcs : ∀ q ∈ cs, axisOrZero q := fun q hq => hall q (by simp [hq])
    have hmerged : ∀ p ∈ (mergeAux c cs).1.filter
        (fun p => decide (p.x ≠ 0) || decide (p.y ≠ 0)), axisOrZero p :=
      fun p hp => mergeAux_axisOrZero cs c hc hcs p (List.mem_filter.1 hp).1
    rw [concat_steps_cons, if_pos hcond, ih hmerged, sumSteps_filter,
      mergeAux_sum cs c hc hcs, sumSteps_cons]
  | case3 c cs pass merged hcond =>
    intro hall
    have hc : axisOrZero c := hall c (by simp)
    have hcs : ∀ q ∈ cs, axisOrZero q := fun q hq => hall q (by simp [hq])
    rw [concat_steps_cons, if_neg hcond, sumSteps_filter,
      mergeAux_sum cs c hc hcs, sumSteps_cons]

lemma concat_steps_axisOrZero : ∀ (l : List Pos), (∀ p ∈ l, axisOrZero p) →
    ∀ p ∈ concat_steps l, axisOrZero p := by
  intro l
  induction l using concat_steps.induct with
  | case1 => intro _ p hp; rw [concat_steps_nil] at hp; simp at hp
  | case2 c cs pass merged hcond ih =>
    intro hall p hp
    have hc : axisOrZero c := hall c (by simp)
    have hcs : ∀ q ∈ cs, axisOrZero q := fun q hq => hall q (by simp [hq])
    have hmerged : ∀ p ∈ (mergeAux c cs).1.filter
        (fun p => decide (p.x ≠ 0) || decide (p.y ≠ 0)), axisOrZero p :=
      fun p hp => mergeAux_axisOrZero cs c hc hcs p (List.mem_filter.1 hp).1
    rw [concat_steps_cons, if_pos hcond] at hp
    exact ih hmerged p hp
  | case3 c cs pass merged hcond =>
    intro hall p hp
    have hc : axisOrZero c := hall c (by simp)
    have hcs : ∀ q ∈ cs, axisOrZero q := fun q hq => hall q (by simp [hq])
    rw [concat_steps_cons, if_neg hcond] at hp
    exact mergeAux_axisOrZero cs c hc hcs p (List.mem_filter.1 hp).1

lemma concat_steps_nonzero : ∀ (l : List Pos), ∀ p ∈ concat_steps l, p.x ≠ 0 ∨ p.y ≠ 0 := by
  intro l
  induction l using concat_steps.induct with
  | case1 => intro p hp; rw [concat_steps_nil] at hp; simp at hp
  | case2 c cs pass merged hcond ih =>
    intro p hp
    rw [concat_steps_cons, if_pos hcond] at hp
    exact ih p hp
  | case3 c cs pass merged hcond =>
    intro p hp
    rw [concat_steps_cons, if_neg hcond] at hp
    have := (List.mem_filter.1 hp).2
    simpa using this

/-- The output of `concat_steps` on an axis-aligned-or-zero input consists of
vectors with exactly one nonzero component. -/
lemma concat_steps_axisAligned (l : List Pos) (hall : ∀ p ∈ l, axisOrZero p) :
    ∀ p ∈ concat_steps l, axisAligned p := by
  intro p hp
  have h1 := concat_steps_axisOrZero l hall p hp
  have h2 := concat_steps_nonzero l p hp
  rcases h1 with h1 | h1
  · exact Or.inr ⟨h1, h2.resolve_left (not_not_intro h1)⟩
  · exact Or.inl ⟨h2.resolve_right (not_not_intro h1), h1⟩

lemma concat_steps_chain : ∀ (l : List Pos), (∀ p ∈ l, axisAligned p) →
    List.Chain' sameAxisFree (concat_steps l) := by
  intro l
  induction l using concat_steps.induct with
  | case1 => intro _; rw [concat_steps_nil]; simp
  | case2 c cs pass merged hcond ih =>
    intro hall
    have hallz : ∀ p ∈ c :: cs, axisOrZero p := fun p hp => axisOrZero_of_axisAligned (hall p hp)
    have hmerged : ∀ p ∈ (mergeAux c cs).1.filter
        (fun p => decide (p.x ≠ 0) || decide (p.y ≠ 0)), axisAligned p := by
      intro p hp
      have hz := mergeAux_axisOrZero cs c (hallz c (by simp))
        (fun q hq => hallz q (by simp [hq])) p (List.mem_filter.1 hp).1
      have hnz : p.x ≠ 0 ∨ p.y ≠ 0 := by simpa using (List.mem_filter.1 hp).2
      rcases hz with hz | hz
      · exact Or.inr ⟨hz, hnz.resolve_left (not_not_intro hz)⟩
      · exact Or.inl ⟨hnz.resolve_right (not_not_intro hz), hz⟩
    rw [concat_steps_cons, if_pos hcond]
    exact ih hmerged
  | case3 c cs pass merged hcond =>
    intro hall
    rw [concat_steps_cons, if_neg hcond]
    by_cases hch : (mergeAux c cs).2 = true
    · exfalso
      apply hcond
      refine ⟨hch, ?_⟩
      have h1 := List.length_filter_le
        (fun p => decide (p.x ≠ 0) || decide (p.y ≠ 0)) (mergeAux c cs).1
      have h2 := mergeAux_length_true cs c hch
      unfold merged pass
      simp only [List.length_cons]
      omega
    · have hfalse : (mergeAux c cs).2 = false := by
        revert hch; cases (mergeAux c cs).2 <;> simp
      rw [mergeAux_false cs c hfalse,
        List.filter_eq_self.mpr (fun p hp => by
          rcases hall p hp with ⟨hx, _⟩ | ⟨_, hy⟩ <;> simp_all)]
      exact mergeAux_chain_of_false cs c hfalse

/-- A path that is already merged (axis-aligned vectors, no adjacent pair on
the same axis) is a fixed point of `concat_steps`. -/
lemma concat_steps_of_chain (l : List Pos) (hall : ∀ p ∈ l, axisAligned p)
    (hc : List.Chain' sameAxisFree l) : concat_steps l = l := by
  cases l with
  | nil => exact concat_steps_nil
  | cons s0 rest =>
    have hm := mergeAux_of_chain rest s0 hc
    have hfilter : (mergeAux s0 rest).1.filter
        (fun p => decide (p.x ≠ 0) || decide (p.y ≠ 0)) = s0 :: rest := by
      rw [hm]
      exact List.filter_eq_self.mpr (fun p hp => by
        rcases hall p hp with ⟨hx, _⟩ | ⟨_, hy⟩ <;> simp_all)
    rw [concat_steps_cons, hfilter, if_neg (by simp [hm])]

/-! ## The three segment groups of the planner -/

lemma sumSteps_append (l1 l2 : List Pos) :
    sumSteps (l1 ++ l2) =
      ⟨(sumSteps l1).x + (sumSteps l2).x, (sumSteps l1).y + (sumSteps l2).y⟩ := by
  induction l1 with
  | nil => exact Pos.ext2 (by dsimp; ring) (by dsimp; ring)
  | cons p rest ih =>
    rw [List.cons_append, sumSteps_cons, ih, sumSteps_cons]
    exact Pos.ext2 (by dsimp; ring) (by dsimp; ring)

lemma sum_pair_vh (dx dy : Int) :
    sumSteps ((if dy ≠ 0 then [(⟨0, dy⟩ : Pos)] else []) ++
      (if dx ≠ 0 then [(⟨dx, 0⟩ : Pos)] else [])) = ⟨dx, dy⟩ := by
  by_cases hdy : dy ≠ 0
  · by_cases hdx : dx ≠ 0
    · rw [if_pos hdy, if_pos hdx]
      exact Pos.ext2 (by simp [sumSteps_cons]) (by simp [sumSteps_cons])
    · rw [if_pos hdy, if_neg hdx, List.append_nil]
      push_neg at hdx
      exact Pos.ext2 (by simp [sumSteps_cons, hdx]) (by simp [sumSteps_cons])
  · by_cases hdx : dx ≠ 0
    · rw [if_neg hdy, if_pos hdx, List.nil_append]
      push_neg at hdy
      exact Pos.ext2 (by simp [sumSteps_cons]) (by simp [sumSteps_cons, hdy])
    · rw [if_neg hdy, if_neg hdx, List.append_nil]
      push_neg at hdy hdx
      exact Pos.ext2 (by simp [hdx]) (by simp [hdy])

lemma sum_pair_hv (dx dy : Int) :
    sumSteps ((if dx ≠ 0 then [(⟨dx, 0⟩ : Pos)] else []) ++
      (if dy ≠ 0 then [(⟨0, dy⟩ : Pos)] else [])) = ⟨dx, dy⟩ := by
  by_cases hdy : dy ≠ 0
  · by_cases hdx : dx ≠ 0
    · rw [if_pos hdy, if_pos hdx]
      exact Pos.ext2 (by simp [sumSteps_cons]) (by simp [sumSteps_cons])
    · rw [if_pos hdy, if_neg hdx, List.nil_append]
      push_neg at hdx
      exact Pos.ext2 (by simp [sumSteps_cons, hdx]) (by simp [sumSteps_cons])
  · by_cases hdx : dx ≠ 0
    · rw [if_neg hdy, if_pos hdx, List.append_nil]
      push_neg at hdy
      exact Pos.ext2 (by simp [sumSteps_cons]) (by simp [sumSteps_cons, hdy])
    · rw [if_neg hdy, if_neg hdx, List.append_nil]
      push_neg at hdy hdx
      exact Pos.ext2 (by simp [hdx]) (by simp [hdy])

lemma mem_pair_vh (dx dy : Int) :
    ∀ p ∈ (if dy ≠ 0 then [(⟨0, dy⟩ : Pos)] else []) ++
      (if dx ≠ 0 then [(⟨dx, 0⟩ : Pos)] else []), axisAligned p := by
  intro p hp
  rcases List.mem_append.1 hp with h | h
  · by_cases hdy : dy ≠ 0
    · rw [if_pos hdy] at h; simp only [List.mem_singleton] at h; subst h
      exact Or.inr ⟨rfl, hdy⟩
    · rw [if_neg hdy] at h; simp at h
  · by_cases hdx : dx ≠ 0
    · rw [if_pos hdx] at h; simp only [List.mem_singleton] at h; subst h
      exact Or.inl ⟨hdx, rfl⟩
    · rw [if_neg hdx] at h; simp at h

lemma mem_pair_hv (dx dy : Int) :
    ∀ p ∈ (if dx ≠ 0 then [(⟨dx, 0⟩ : Pos)] else []) ++
      (if dy ≠ 0 then [(⟨0, dy⟩ : Pos)] else []), axisAligned p := by
  intro p hp
  rcases List.mem_append.1 hp with h | h
  · by_cases hdx : dx ≠ 0
    · rw [if_pos hdx] at h; simp only [List.mem_singleton] at h; subst h
      exact Or.inl ⟨hdx, rfl⟩
    · rw [if_neg hdx] at h; simp at h
  · by_cases hdy : dy ≠ 0
    · rw [if_pos hdy] at h; simp only [List.mem_singleton] at h; subst h
      exact Or.inr ⟨rfl, hdy⟩
    · rw [if_neg hdy] at h; simp at h

lemma to_corner_sum (a b : Pos) : sumSteps (to_corner a b) = ⟨b.x - a.x, b.y - a.y⟩ := by
  simp only [to_corner]; exact sum_pair_vh (b.x - a.x) (b.y - a.y)

lemma manhattan_sum (a b : Pos) : sumSteps (manhattan a b) = ⟨b.x - a.x, b.y - a.y⟩ := by
  simp only [manhattan]; exact sum_pair_hv (b.x - a.x) (b.y - a.y)

lemma from_corner_sum (a b : Pos) : sumSteps (from_corner a b) = ⟨b.x - a.x, b.y - a.y⟩ := by
  simp only [from_corner]; exact sum_pair_hv (b.x - a.x) (b.y - a.y)

lemma to_corner_mem (a b : Pos) : ∀ p ∈ to_corner a b, axisAligned p := by
  simp only [to_corner]; exact mem_pair_vh (b.x - a.x) (b.y - a.y)

lemma manhattan_mem (a b : Pos) : ∀ p ∈ manhattan a b, axisAligned p := by
  simp only [manhattan]; exact mem_pair_hv (b.x - a.x) (b.y - a.y)

lemma from_corner_mem (a b : Pos) : ∀ p ∈ from_corner a b, axisAligned p := by
  simp only [from_corner]; exact mem_pair_hv (b.x - a.x) (b.y - a.y)

/-!
## Claim theorems about the motion planner
-/

/-- **C1.** For every UCI move naming two distinct squares, every vector of
the step list returned by `generate_motion_steps` has exactly one nonzero
component, and the componentwise sum of the vectors equals the destination
square's center coordinate minus the source square's center coordinate. -/
theorem C1_generate_motion_steps_axis_aligned_and_sum (m : Square × Square)
    (hv1 : isValidSquare m.1) (hv2 : isValidSquare m.2) (hne : m.1 ≠ m.2) :
    (∀ p ∈ (generate_motion_steps m).2, axisAligned p) ∧
    sumSteps (generate_motion_steps m).2 =
      ⟨(uci_square_to_pos m.2).x - (uci_square_to_pos m.1).x,
       (uci_square_to_pos m.2).y - (uci_square_to_pos m.1).y⟩ := by
  have hgen : (generate_motion_steps m).2 =
      concat_steps
        (to_corner (uci_square_to_pos m.1)
            (find_first_corner (uci_square_to_pos m.1) (uci_square_to_pos m.2)) ++
          manhattan (find_first_corner (uci_square_to_pos m.1) (uci_square_to_pos m.2))
            (find_last_corner (uci_square_to_pos m.1) (uci_square_to_pos m.2)) ++
          from_corner (find_last_corner (uci_square_to_pos m.1) (uci_square_to_pos m.2))
            (uci_square_to_pos m.2)) := rfl
  have hax : ∀ p ∈ to_corner (uci_square_to_pos m.1)
        (find_first_corner (uci_square_to_pos m.1) (uci_square_to_pos m.2)) ++
      manhattan (find_first_corner (uci_square_to_pos m.1) (uci_square_to_pos m.2))
        (find_last_corner (uci_square_to_pos m.1) (uci_square_to_pos m.2)) ++
      from_corner (find_last_corner (uci_square_to_pos m.1) (uci_square_to_pos m.2))
        (uci_square_to_pos m.2), axisAligned p := by
    intro p hp
    rcases List.mem_append.1 hp with hp | hp
    · rcases List.mem_append.1 hp with hp | hp
      · exact to_corner_mem _ _ p hp
      · exact manhattan_mem _ _ p hp
    · exact from_corner_mem _ _ p hp
  constructor
  · rw [hgen]
    exact concat_steps_axisAligned _ (fun q hq => axisOrZero_of_axisAligned (hax q hq))
  · rw [hgen, concat_steps_sum _ (fun q hq => axisOrZero_of_axisAligned (hax q hq)),
      sumSteps_append, sumSteps_append, to_corner_sum, manhattan_sum, from_corner_sum]
    exact Pos.ext2 (by dsimp; ring) (by dsimp; ring)

/-- Witness for C1 at the concrete move e2e4. -/
theorem C1_witness :
    isValidSquare ⟨4, 2⟩ ∧ isValidSquare ⟨4, 4⟩ ∧ (⟨4, 2⟩ : Square) ≠ ⟨4, 4⟩ ∧
    ((∀ p ∈ (generate_motion_steps (⟨4, 2⟩, ⟨4, 4⟩)).2, axisAligned p) ∧
      sumSteps (generate_motion_steps (⟨4, 2⟩, ⟨4, 4⟩)).2 =
        ⟨(uci_square_to_pos ⟨4, 4⟩).x - (uci_square_to_pos ⟨4, 2⟩).x,
         (uci_square_to_pos ⟨4, 4⟩).y - (uci_square_to_pos ⟨4, 2⟩).y⟩) :=
  ⟨by decide, by decide, by decide,
    C1_generate_motion_steps_axis_aligned_and_sum (⟨4, 2⟩, ⟨4, 4⟩)
      (by decide) (by decide) (by decide)⟩

/-- **C6.** `concat_steps` is idempotent on lists of axis-aligned steps, and
its output is a fixed point: it contains no zero vector and no two adjacent
vectors on the same axis. -/
theorem C6_concat_steps_idempotent (l : List Pos) (hall : ∀ p ∈ l, axisAligned p) :
    concat_steps (concat_steps l) = concat_steps l ∧
    (∀ p ∈ concat_steps l, axisAligned p) ∧
    List.Chain' sameAxisFree (concat_steps l) := by
  have hz : ∀ p ∈ l, axisOrZero p := fun p hp => axisOrZero_of_axisAligned (hall p hp)
  have hout := concat_steps_axisAligned l hz
  have hchain := concat_steps_chain l hall
  exact ⟨concat_steps_of_chain _ hout hchain, hout, hchain⟩

/-- Witness for C6 on a mergeable concrete path. -/
theorem C6_witness :
    (∀ p ∈ ([⟨0, 1⟩, ⟨0, 2⟩, ⟨3, 0⟩] : List Pos), axisAligned p) ∧
    (concat_steps (concat_steps [⟨0, 1⟩, ⟨0, 2⟩, ⟨3, 0⟩]) =
        concat_steps [⟨0, 1⟩, ⟨0, 2⟩, ⟨3, 0⟩] ∧
      (∀ p ∈ concat_steps [⟨0, 1⟩, ⟨0, 2⟩, ⟨3, 0⟩], axisAligned p) ∧
      List.Chain' sameAxisFree (concat_steps [⟨0, 1⟩, ⟨0, 2⟩, ⟨3, 0⟩])) :=
  ⟨by decide, C6_concat_steps_idempotent [⟨0, 1⟩, ⟨0, 2⟩, ⟨3, 0⟩] (by decide)⟩

lemma find_first_corner_self (p : Pos) : find_first_corner p p = ⟨p.x - 1, p.y - 1⟩ := by
  have h1 : dist2 ⟨p.x - 1, p.y - 1⟩ p = 2 := by unfold dist2; ring
  have h2 : dist2 ⟨p.x + 1, p.y - 1⟩ p = 2 := by unfold dist2; ring
  have h3 : dist2 ⟨p.x - 1, p.y + 1⟩ p = 2 := by unfold dist2; ring
  have h4 : dist2 ⟨p.x + 1, p.y + 1⟩ p = 2 := by unfold dist2; ring
  unfold find_first_corner min_by_dist2 square_adjacent_corners
  simp [h1, h2, h3, h4]

lemma find_last_corner_self (p : Pos) : find_last_corner p p = ⟨p.x - 1, p.y - 1⟩ := by
  have h1 : dist2 ⟨p.x - 1, p.y - 1⟩ p = 2 := by unfold dist2; ring
  have h2 : dist2 ⟨p.x + 1, p.y - 1⟩ p = 2 := by unfold dist2; ring
  have h3 : dist2 ⟨p.x - 1, p.y + 1⟩ p = 2 := by unfold dist2; ring
  have h4 : dist2 ⟨p.x + 1, p.y + 1⟩ p = 2 := by unfold dist2; ring
  unfold find_last_corner min_by_dist2 square_adjacent_corners
  simp [h1, h2, h3, h4]

/-- **C7.** A degenerate move whose source square equals its destination
square yields an empty step list. -/
theorem C7_generate_motion_steps_degenerate (sq : Square) :
    (generate_motion_steps (sq, sq)).2 = [] := by
  have hgen : (generate_motion_steps (sq, sq)).2 =
      concat_steps
        (to_corner (uci_square_to_pos sq)
            (find_first_corner (uci_square_to_pos sq) (uci_square_to_pos sq)) ++
          manhattan (find_first_corner (uci_square_to_pos sq) (uci_square_to_pos sq))
            (find_last_corner (uci_square_to_pos sq) (uci_square_to_pos sq)) ++
          from_corner (find_last_corner (uci_square_to_pos sq) (uci_square_to_pos sq))
            (uci_square_to_pos sq)) := rfl
  set p := uci_square_to_pos sq with hp
  rw [hgen, find_first_corner_self, find_last_corner_self]
  have hto : to_corner p ⟨p.x - 1, p.y - 1⟩ = [⟨0, -1⟩, ⟨-1, 0⟩] := by
    have e1 : p.x - 1 - p.x = -1 := by ring
    have e2 : p.y - 1 - p.y = -1 := by ring
    simp only [to_corner, e1, e2]
    norm_num
  have hman : manhattan (⟨p.x - 1, p.y - 1⟩ : Pos) ⟨p.x - 1, p.y - 1⟩ = [] := by
    simp [manhattan]
  have hfrom : from_corner (⟨p.x - 1, p.y - 1⟩ : Pos) p = [⟨1, 0⟩, ⟨0, 1⟩] := by
    have e1 : p.x - (p.x - 1) = 1 := by ring
    have e2 : p.y - (p.y - 1) = 1 := by ring
    simp only [from_corner, e1, e2]
    norm_num
  rw [hto, hman, hfrom]
  simp [concat_steps_cons, concat_steps_nil, mergeAux]

/-- The concrete path the planner produces for e2e4, in half-pitch units:
the move corner-routes along the edge of the e file. -/
lemma e2e4_path_eval :
    (generate_motion_steps (⟨4, 2⟩, ⟨4, 4⟩)).2 =
      [⟨0, 1⟩, ⟨-1, 0⟩, ⟨0, 2⟩, ⟨1, 0⟩, ⟨0, 1⟩] := by
  simp [generate_motion_steps, uci_to_coords, uci_square_to_pos, letter_to_x, number_to_y,
    find_closest_corners, find_first_corner, find_last_corner, square_adjacent_corners,
    min_by_dist2, dist2, to_corner, manhattan, from_corner, concat_steps, mergeAux]

/-- **C4, counterexample.** The claim states that the e2e4 path sums to
`(0, +3×pitch)` (i.e. `(0, 6)` in half-pitch units) with all of its vectors
on the y axis only; the code produces a path summing to `(0, +2×pitch)`
that contains x-axis vectors. -/
theorem C4_counterexample :
    ¬(sumSteps (generate_motion_steps (⟨4, 2⟩, ⟨4, 4⟩)).2 = ⟨0, 6⟩ ∧
      ∀ p ∈ (generate_motion_steps (⟨4, 2⟩, ⟨4, 4⟩)).2, p.x = 0) := by
  rw [e2e4_path_eval]
  decide

/-- **C4, amended.** The e2e4 path sums to `(0, +2×pitch)` = `(0, 4)`
half-pitches; each of its vectors is axis-aligned, but the path detours via
square corners, so it contains two cancelling x-axis vectors. -/
theorem C4_amended :
    sumSteps (generate_motion_steps (⟨4, 2⟩, ⟨4, 4⟩)).2 = ⟨0, 4⟩ ∧
    (∀ p ∈ (generate_motion_steps (⟨4, 2⟩, ⟨4, 4⟩)).2, axisAligned p) ∧
    (∃ p ∈ (generate_motion_steps (⟨4, 2⟩, ⟨4, 4⟩)).2, p.x ≠ 0) := by
  rw [e2e4_path_eval]
  decide

lemma detectStep_eq (old_board new_board : PhysBoard)
    (st : Option (Nat × Nat) × Option (Nat × Nat)) (rc : Nat × Nat) :
    detectStep old_board new_board st rc =
      (if vacatedB old_board new_board rc then some rc else st.1,
       if appearedB old_board new_board rc then some rc else st.2) := by
  rcases h1 : cell old_board rc with _ | a <;> rcases h2 : cell new_board rc with _ | b
  · simp [detectStep, vacatedB, appearedB, h1, h2]
  · simp [detectStep, vacatedB, appearedB, h1, h2]
  · simp [detectStep, vacatedB, appearedB, h1, h2]
  · by_cases hab : a = b
    · subst hab; simp [detectStep, vacatedB, appearedB, h1, h2]
    · simp [detectStep, vacatedB, appearedB, h1, h2, hab]

lemma foldl_detect_prod (old_board new_board : PhysBoard) :
    ∀ (L : List (Nat × Nat)) (a b : Option (Nat × Nat)),
    L.foldl (fun st rc =>
        (if vacatedB old_board new_board rc then some rc else st.1,
         if appearedB old_board new_board rc then some rc else st.2)) (a, b) =
      (L.foldl (fun acc rc => if vacatedB old_board new_board rc then some rc else acc) a,
       L.foldl (fun acc rc => if appearedB old_board new_board rc then some rc else acc) b)
  | [], _, _ => rfl
  | rc :: rest, a, b => by
    rw [List.foldl_cons, List.foldl_cons, List.foldl_cons]
    exact foldl_detect_prod old_board new_board rest _ _

lemma foldl_lastWins {α : Type} (p : α → Bool) (init : Option α) (L : List α) :
    L.foldl (fun a x => if p x then some x else a) init =
      ((L.filter p).getLast?).or init := by
  induction L generalizing init with
  | nil => rfl
  | cons x rest ih =>
    by_cases hx : p x
    · rw [List.foldl_cons, if_pos hx, ih, List.filter_cons_of_pos hx]
      cases hlast : (rest.filter p).getLast? with
      | none =>
        have hnil : rest.filter p = [] := by
          by_contra hne
          have hsome := (List.getLast?_isSome (l := rest.filter p)).2 hne
          rw [hlast] at hsome
          simp at hsome
        simp [hnil, Option.or]
      | some y =>
        have h1 : ((x :: rest.filter p).getLast?) = some y := by
          cases hf : rest.filter p with
          | nil => simp [hf] at hlast
          | cons z zs =>
            rw [List.getLast?_cons_cons, ← hf]
            exact hlast
        rw [h1]
        simp [Option.or]
    · rw [List.foldl_cons, if_neg hx, ih, List.filter_cons_of_neg (by simpa using hx)]

lemma detect_move_foldl (old_board new_board : PhysBoard) :
    scanPairs.foldl (detectStep old_board new_board) (none, none) =
      ((scanPairs.filter (vacatedB old_board new_board)).getLast?,
       (scanPairs.filter (appearedB old_board new_board)).getLast?) := by
  have h1 : scanPairs.foldl (detectStep old_board new_board) (none, none) =
      scanPairs.foldl (fun st rc =>
        (if vacatedB old_board new_board rc then some rc else st.1,
         if appearedB old_board new_board rc then some rc else st.2)) (none, none) :=
    List.foldl_ext _ _ _ (fun st rc _ => detectStep_eq old_board new_board st rc)
  rw [h1, foldl_detect_prod, foldl_lastWins, foldl_lastWins, Option.or_none, Option.or_none]

lemma detect_move_as_match (old_board new_board : PhysBoard) :
    detect_move old_board new_board =
      (match (scanPairs.filter (vacatedB old_board new_board)).getLast?,
          (scanPairs.filter (appearedB old_board new_board)).getLast? with
        | some (fr, fc), some (tr, tc) => some (pos_to_uci fr fc ++ pos_to_uci tr tc)
        | _, _ => none) := by
  unfold detect_move
  rw [detect_move_foldl]

lemma match_uci_isSome (a b : Option (Nat × Nat)) :
    (match a, b with
      | some (fr, fc), some (tr, tc) => some (pos_to_uci fr fc ++ pos_to_uci tr tc)
      | _, _ => (none : Option String)).isSome ↔ a.isSome ∧ b.isSome := by
  rcases a with _ | ⟨fr, fc⟩ <;> rcases b with _ | ⟨tr, tc⟩ <;> simp

lemma getLast_filter_isSome {α : Type} (p : α → Bool) (L : List α) :
    (L.filter p).getLast?.isSome ↔ ∃ x ∈ L, p x := by
  rw [List.getLast?_isSome, Ne, List.filter_eq_nil]
  push_neg
  simp

/-- **C10.** `detect_move` returns a move string iff at least one square went
occupied→empty and at least one went empty→occupied; the returned string is
built from the last square of each kind in row-major scan order; and whenever
no square goes empty→occupied (as in a capture, where the destination stays
occupied with a different identifier, or a pure removal) it returns `none`. -/
theorem C10_detect_move_iff (old_board new_board : PhysBoard) :
    ((detect_move old_board new_board).isSome ↔
      ((∃ rc ∈ scanPairs, vacatedB old_board new_board rc) ∧
       (∃ rc ∈ scanPairs, appearedB old_board new_board rc))) ∧
    (∀ fr fc tr tc,
      (scanPairs.filter (vacatedB old_board new_board)).getLast? = some (fr, fc) →
      (scanPairs.filter (appearedB old_board new_board)).getLast? = some (tr, tc) →
      detect_move old_board new_board = some (pos_to_uci fr fc ++ pos_to_uci tr tc)) ∧
    ((∀ rc ∈ scanPairs, ¬ appearedB old_board new_board rc) →
      detect_move old_board new_board = none) := by
  refine ⟨?_, ?_, ?_⟩
  · rw [detect_move_as_match, match_uci_isSome, getLast_filter_isSome, getLast_filter_isSome]
  · intro fr fc tr tc h1 h2
    rw [detect_move_as_match, h1, h2]
  · intro hnone
    have hnil : scanPairs.filter (appearedB old_board new_board) = [] :=
      List.filter_eq_nil.mpr (fun rc hrc => by simpa using hnone rc hrc)
    rw [detect_move_as_match, hnil]
    rcases (scanPairs.filter (vacatedB old_board new_board)).getLast? with _ | ⟨fr, fc⟩ <;> rfl

/-- Witness for C10 at the concrete boards: the single piece moved e2→e4. -/
theorem C10_witness :
    (scanPairs.filter (vacatedB demoOld demoNew)).getLast? = some (6, 4) ∧
    (scanPairs.filter (appearedB demoOld demoNew)).getLast? = some (4, 4) ∧
    detect_move demoOld demoNew = some (pos_to_uci 6 4 ++ pos_to_uci 4 4) ∧
    pos_to_uci 6 4 ++ pos_to_uci 4 4 = "e2e4" :=
  ⟨by decide, by decide,
    (C10_detect_move_iff demoOld demoNew).2.1 6 4 4 4 (by decide) (by decide),
    by decide⟩

/-- **C2, counterexample.** The claim says a freshly assembled board is used
for move detection and committed as the new baseline only after identical
readings on k = 2 consecutive polls, never on a single poll.  In the code
there is no stability filter at all: a board seen on one single poll is
immediately matched against the old baseline and stored as the new
baseline. -/
theorem C2_counterexample :
    demoNew ≠ demoOld ∧
    run_polls demoOld [some demoNew] = ([some "e2e4"], demoNew) := by
  refine ⟨by decide, ?_⟩
  have hdet : detect_move demoOld demoNew = some "e2e4" := by decide
  simp [run_polls, detect_player_move, hdet]

/-- **C2, amended.** There is no stability confirmation: on the very first
poll whose diff against the stored baseline parses as a move,
`detect_player_move` reports that move and installs the polled board as
`self.physical_board`, and every subsequent poll is matched against the
newly installed baseline — identical consecutive readings are never
required. -/
theorem C2_amended (physical_board ns : PhysBoard) (uci : String)
    (polls : List (Option PhysBoard))
    (h : detect_move physical_board ns = some uci) :
    detect_player_move physical_board (some ns) = (some uci, ns) ∧
    run_polls physical_board (some ns :: polls) =
      (some uci :: (run_polls ns polls).1, (run_polls ns polls).2) := by
  constructor
  · simp [detect_player_move, h]
  · simp [run_polls, detect_player_move, h]

/-- Witness for the amended C2 at the concrete boards, with one subsequent
read-failure poll. -/
theorem C2_amended_witness :
    detect_move demoOld demoNew = some "e2e4" ∧
    (detect_player_move demoOld (some demoNew) = (some "e2e4", demoNew) ∧
      run_polls demoOld [some demoNew, none] =
        (some "e2e4" :: (run_polls demoNew [none]).1, (run_polls demoNew [none]).2)) :=
  ⟨by decide, C2_amended demoOld demoNew "e2e4" [none] (by decide)⟩

/-- **C3, counterexample.** The observed layout `demoNew` read against the
baseline `demoOld2` models an e7 sensor dropout combined with a physical
e2→e4: two squares were vacated and one occupied, a layout no single legal
move produces (formally: outside the abstract reachable-layout set of the
current position).  `detect_move` still returns "e2e4" — the last vacated
square in scan order paired with the appeared square — and since that move
happens to be legal in the current position, the play loop pushes it: the
position changes.  Matching never consults reachability, and reachability
never guards the push. -/
theorem C3_counterexample :
    ¬ layoutReachable [demoOld2] demoNew ∧
    detect_move demoOld2 demoNew = some "e2e4" ∧
    (play_player_turn (fun (p : Nat) (_ : Nat) => p + 1) (fun _ _ => true)
        (fun _ => some 7) ⟨0, PLAYER, demoOld2⟩ (some demoNew)).pos = 1 := by
  refine ⟨by decide, by decide, ?_⟩
  have hdet : detect_move demoOld2 demoNew = some "e2e4" := by decide
  simp [play_player_turn, detect_player_move, player_move, hdet, COM]

/-- **C3, amended.** Move matching may return a move string for a layout not
reachable by any single legal move — `detect_move` diffs occupancy only and
never consults the symbolic position — and reachability never guards the
symbolic board: for an unreachable layout whose diff is detected, the sole
gate is `board.is_legal`.  If the parsed move is legal in the current
position the move IS pushed and the turn passes to the computer; only when
it is illegal does the position stay unchanged (the physical baseline is
replaced by the unreachable layout either way). -/
theorem C3_amended {π μ : Type} (push : π → μ → π) (legal : π → μ → Bool)
    (parse : String → Option μ) (legalLayouts : List PhysBoard)
    (layout : PhysBoard) (st : GameState π) (uci : String) (mv : μ)
    (hunreach : ¬ layoutReachable legalLayouts layout)
    (hdet : detect_move st.physical layout = some uci)
    (hparse : parse uci = some mv) :
    (legal st.pos mv = true →
      (play_player_turn push legal parse st (some layout)).pos = push st.pos mv ∧
      (play_player_turn push legal parse st (some layout)).turn = COM) ∧
    (legal st.pos mv = false →
      play_player_turn push legal parse st (some layout) =
        { st with physical := layout }) := by
  constructor <;> intro hl <;>
    simp [play_player_turn, detect_player_move, player_move, hdet, hparse, hl]

/-- Witness for the amended C3 at the dropout scenario, with a rules engine
that accepts the detected move: the move from the unreachable layout is
pushed. -/
theorem C3_amended_witness :
    ¬ layoutReachable [demoOld2] demoNew ∧
    detect_move demoOld2 demoNew = some "e2e4" ∧
    ((play_player_turn (fun (p : Nat) (_ : Nat) => p + 1) (fun _ _ => true)
        (fun _ => some 7) ⟨0, PLAYER, demoOld2⟩ (some demoNew)).pos = (0 : Nat) + 1 ∧
      (play_player_turn (fun (p : Nat) (_ : Nat) => p + 1) (fun _ _ => true)
        (fun _ => some 7) ⟨0, PLAYER, demoOld2⟩ (some demoNew)).turn = COM) :=
  ⟨by decide, by decide,
    (C3_amended (fun p _ => p + 1) (fun _ _ => true) (fun _ => some 7)
      [demoOld2] demoNew ⟨0, PLAYER, demoOld2⟩ "e2e4" 7
      (by decide) (by decide) rfl).1 rfl⟩

/-- **C8.** No error path mutates the symbolic board: one player-turn
iteration either leaves the position and the side to move unchanged (read
failure, no detected move, unparsable UCI, illegal move), or there was a
detected, parsed move that the rules engine confirmed legal and exactly that
move was pushed; and the computer branch pushes exactly the oracle-returned
move. -/
theorem C8_no_error_path_mutates_board {π μ : Type} (push : π → μ → π)
    (legal : π → μ → Bool) (parse : String → Option μ) (oracle : π → μ)
    (st : GameState π) (new_state : Option PhysBoard) :
    (((play_player_turn push legal parse st new_state).pos = st.pos ∧
      (play_player_turn push legal parse st new_state).turn = st.turn) ∨
     (∃ uci mv, (detect_player_move st.physical new_state).1 = some uci ∧
       parse uci = some mv ∧ legal st.pos mv = true ∧
       (play_player_turn push legal parse st new_state).pos = push st.pos mv ∧
       (play_player_turn push legal parse st new_state).turn = COM)) ∧
    ((ai_move push oracle st).pos = push st.pos (oracle st.pos) ∧
      (ai_move push oracle st).turn = PLAYER) := by
  refine ⟨?_, rfl, rfl⟩
  cases hr : (detect_player_move st.physical new_state).1 with
  | none => left; simp [play_player_turn, hr]
  | some uci =>
    cases hp : parse uci with
    | none => left; simp [play_player_turn, hr, hp]
    | some mv =>
      cases hl : legal st.pos mv with
      | false => left; simp [play_player_turn, player_move, hr, hp, hl]
      | true =>
        right
        refine ⟨uci, mv, ?_, ?_, ?_, ?_, ?_⟩ <;>
          simp [play_player_turn, player_move, hr, hp, hl]

/-- Witness for C8 at concrete data: a read-failure poll changes nothing. -/
theorem C8_witness :
    ((play_player_turn (fun (p : Nat) (_ : Nat) => p + 1) (fun _ _ => true)
        (fun _ => none) ⟨0, PLAYER, demoOld⟩ none).pos = 0 ∧
      (play_player_turn (fun (p : Nat) (_ : Nat) => p + 1) (fun _ _ => true)
        (fun _ => none) ⟨0, PLAYER, demoOld⟩ none).turn = PLAYER) ∨
    (∃ uci mv, (detect_player_move demoOld none).1 = some uci ∧
      (fun (_ : String) => (none : Option Nat)) uci = some mv ∧
      (fun (_ : Nat) (_ : Nat) => true) 0 mv = true ∧
      (play_player_turn (fun (p : Nat) (_ : Nat) => p + 1) (fun _ _ => true)
        (fun _ => none) ⟨0, PLAYER, demoOld⟩ none).pos = 0 + 1 ∧
      (play_player_turn (fun (p : Nat) (_ : Nat) => p + 1) (fun _ _ => true)
        (fun _ => none) ⟨0, PLAYER, demoOld⟩ none).turn = COM) :=
  (C8_no_error_path_mutates_board (fun p _ => p + 1) (fun _ _ => true)
    (fun _ => none) (fun p => p) ⟨0, PLAYER, demoOld⟩ none).1

lemma opt_roundtrip (a : Nat) :
    (if a = 0 then (none : Option Nat) else some a).getD 0 = a := by
  by_cases h : a = 0 <;> simp [h]

set_option maxHeartbeats 1000000 in
/-- **C5.** Decoding a well-formed 32-value RawScan with the module's wiring
permutation and re-encoding the resulting half-board with the inverse
permutation (empty ↦ 0, row reversal and reshape undone) reproduces the
original RawScan exactly, for all 32 byte values; decoding itself is a pure
function of the block, hence deterministic. -/
theorem C5_decode_reencode_roundtrip
    (a0 a1 a2 a3 a4 a5 a6 a7 a8 a9 a10 a11 a12 a13 a14 a15
     a16 a17 a18 a19 a20 a21 a22 a23 a24 a25 a26 a27 a28 a29 a30 a31 : Nat) :
    (remap_and_reshape_half
        (some [a0, a1, a2, a3, a4, a5, a6, a7, a8, a9, a10, a11, a12, a13, a14, a15,
          a16, a17, a18, a19, a20, a21, a22, a23, a24, a25, a26, a27, a28, a29, a30, a31])
        NANO1_MAP).map (fun h => reencode_half h NANO1_MAP_INV) =
      some [a0, a1, a2, a3, a4, a5, a6, a7, a8, a9, a10, a11, a12, a13, a14, a15,
        a16, a17, a18, a19, a20, a21, a22, a23, a24, a25, a26, a27, a28, a29, a30, a31] := by
  simp [remap_and_reshape_half, reencode_half, apply_block_map, NANO1_MAP, NANO1_MAP_INV,
    NUM_READERS_PER_NANO, opt_roundtrip, List.range_succ]

lemma take4_all_none {L : List (List (Option Nat))}
    (hmap : L.map (fun row => row.take 4) = List.replicate 8 (List.replicate 4 none)) :
    ∀ r c, r < 8 → c < 4 → cell L (r, c) = none := by
  intro r c hr hc
  have hlen : L.length = 8 := by
    have := congrArg List.length hmap
    simpa using this
  have hget : L.get? r = some (L.get ⟨r, by omega⟩) := List.get?_eq_get (by omega)
  have h1 : (L.map (fun row => row.take 4)).get? r =
      some ((L.get ⟨r, by omega⟩).take 4) := by
    rw [List.get?_map, hget]
    rfl
  rw [hmap] at h1
  have h2 : (List.replicate 8 (List.replicate 4 (none : Option Nat))).get? r =
      some (List.replicate 4 none) := by
    rw [List.get?_eq_get (by simpa using hr), List.get_replicate]
  rw [h2] at h1
  have h3 : (L.get ⟨r, by omega⟩).take 4 = List.replicate 4 none :=
    (Option.some.injEq _ _ ▸ h1).symm
  show (L.getD r []).getD c none = none
  have h4 : L.getD r [] = L.get ⟨r, by omega⟩ := by
    rw [List.getD_eq_get?, hget]
    rfl
  rw [h4, List.getD_eq_get?, ← List.get?_take hc, h3,
    List.get?_eq_get (by simpa using hc), List.get_replicate]
  rfl

/-- **C9.** Every 8×8 board successfully returned by `assemble_full_board`
has all 32 cells of columns 0–3 (files a–d) equal to `None`, regardless of
the sensor input: the left half is a constant placeholder. -/
theorem C9_left_half_always_empty (ping_ok : Bool) (raw : Option (List Nat))
    (b : PhysBoard) (h : assemble_full_board ping_ok raw = some b) :
    b.map (fun row => row.take 4) = List.replicate 8 (List.replicate 4 none) ∧
    ∀ r c, r < 8 → c < 4 → cell b (r, c) = none := by
  unfold assemble_full_board at h
  cases hr : read_half_from_nano1 ping_ok raw with
  | none => rw [hr] at h; simp at h
  | some right =>
    rw [hr] at h
    simp only [Option.some.injEq] at h
    subst h
    have hmap : ((List.range 8).foldl (fun acc r =>
        let acc1 := (List.range 4).foldl (fun a c =>
          a.set r ((a.getD r []).set c
            (((List.replicate 8 (List.replicate 4 (none : Option Nat))).getD r []).getD c
              none))) acc
        (List.range 4).foldl (fun a c =>
          a.set r ((a.getD r []).set (c + 4) ((right.getD r []).getD c none))) acc1)
        (List.replicate 8 (List.replicate 8 none))).map (fun row => row.take 4) =
        List.replicate 8 (List.replicate 4 none) := by
      simp [List.range_succ]
    exact ⟨hmap, take4_all_none hmap⟩

/-- Witness for C9: an all-zero sensor block yields the all-empty board. -/
theorem C9_witness :
    assemble_full_board true (some (List.replicate 32 0)) =
      some (List.replicate 8 (List.replicate 8 none)) ∧
    ((List.replicate 8 (List.replicate 8 (none : Option Nat))).map
        (fun row => row.take 4) = List.replicate 8 (List.replicate 4 none) ∧
      ∀ r c, r < 8 → c < 4 →
        cell (List.replicate 8 (List.replicate 8 (none : Option Nat))) (r, c) = none) :=
  ⟨by decide,
    C9_left_half_always_empty true (some (List.replicate 32 0)) _ (by decide)⟩

end ChessManager
